import Mathlib

/-!
Verification of the `coderec` machine-code detector against its specification.

This file shallowly embeds the core of the program:
* `src/corpus.rs`: `CorpusStats::new` (n-gram statistics with smoothing) and
  `CorpusStats::compute_kl` (Kullback-Leibler style divergence);
* `src/main.rs`: the decision heuristic `final_range_result`, the window planner
  inside `detect_code`, and the aggregation steps of
  `From<DetectionResult> for ProcessedDetectionResult`.

Modelling conventions:
* bytes are `Fin 256`; byte slices are `List Byte`;
* `f64` values are real numbers, `f64` arithmetic is exact real arithmetic
  (so `x / 0 = 0` stands where IEEE would produce `NaN`/`inf`), and
  `(l as f64).log2() as usize` is the exact `Nat.log2`;
* a Rust `HashMap` is represented by its set of keys (a `Finset`) together with
  a value function, or, where iteration order matters, by an association list
  whose list order models the iteration order;
* a Rust `BTreeMap` is an association list in its canonical (sorted) order;
* operations that panic (`unwrap` on `None`, `step_by(0)`) are modelled with
  `Option` results or empty output, as documented at each definition.
-/

abbrev Byte := Fin 256

/-- The stream of length-3 windows of a byte slice: `data.windows(3)` in
`CorpusStats::new`. -/
def windows3 : List Byte → List (Byte × Byte × Byte)
  | x :: y :: z :: rest => (x, y, z) :: windows3 (y :: z :: rest)
  | _ => []

/-- The unigrams counted by `CorpusStats::new`: the first byte of each
3-window (`let ug = w[0]`). -/
def ugList (data : List Byte) : List Byte := (windows3 data).map (fun w => w.1)

/-- The bigrams counted by `CorpusStats::new` (`let bg = (w[0], w[1])`). -/
def bgList (data : List Byte) : List (Byte × Byte) :=
  (windows3 data).map (fun w => (w.1, w.2.1))

/-- The trigrams counted by `CorpusStats::new` (`let tg = (w[0], w[1], w[2])`). -/
def tgList (data : List Byte) : List (Byte × Byte × Byte) := windows3 data

/-- The count stored in the n-gram hash map for an observed key: the first
insertion stores `1 + base_count` and every further occurrence adds `1`,
so an observed key `g` holds `count g + base_count`.  Keys that never occur
are absent from the map; the observed-key set is `l.toFinset`. -/
noncomputable def storedCount {G : Type} [DecidableEq G] (b : ℝ) (l : List G) (g : G) : ℝ :=
  (l.count g : ℝ) + b

/-- `Qtotal` of `CorpusStats::new`:
`base_count * (256^k - counts.len()) + counts.values().sum()` where `space = 256^k`. -/
noncomputable def qtotal {G : Type} [DecidableEq G] (space : ℕ) (b : ℝ) (l : List G) : ℝ :=
  b * ((space - l.toFinset.card : ℕ) : ℝ) + ∑ g ∈ l.toFinset, storedCount b l g

/-- The frequency stored for key `g`: `stored count / Qtotal`.  The source map
holds this value exactly on observed keys; the function is total here, and
consumers pair it with the observed-key `Finset`. -/
noncomputable def gramFreq {G : Type} [DecidableEq G] (space : ℕ) (b : ℝ) (l : List G) :
    G → ℝ :=
  fun g => storedCount b l g / qtotal space b l

/-- The base (smoothing) frequency: `base_count / Qtotal`. -/
noncomputable def gramBase {G : Type} [DecidableEq G] (space : ℕ) (b : ℝ) (l : List G) : ℝ :=
  b / qtotal space b l

/-- `CorpusStats` of `corpus.rs`: per-order observed-key sets and frequency
maps, plus the three base frequencies. -/
structure CorpusStats where
  arch : String
  ugObs : Finset Byte
  bgObs : Finset (Byte × Byte)
  tgObs : Finset (Byte × Byte × Byte)
  ungrams_freq : Byte → ℝ
  bigrams_freq : Byte × Byte → ℝ
  trigrams_freq : Byte × Byte × Byte → ℝ
  ug_base_freq : ℝ
  bg_base_freq : ℝ
  tg_base_freq : ℝ

/-- `CorpusStats::new(arch, data, base_count)`. -/
noncomputable def CorpusStats.new (arch : String) (data : List Byte) (base_count : ℝ) :
    CorpusStats where
  arch := arch
  ugObs := (ugList data).toFinset
  bgObs := (bgList data).toFinset
  tgObs := (tgList data).toFinset
  ungrams_freq := gramFreq 256 base_count (ugList data)
  bigrams_freq := gramFreq (256 ^ 2) base_count (bgList data)
  trigrams_freq := gramFreq (256 ^ 3) base_count (tgList data)
  ug_base_freq := gramBase 256 base_count (ugList data)
  bg_base_freq := gramBase (256 ^ 2) base_count (bgList data)
  tg_base_freq := gramBase (256 ^ 3) base_count (tgList data)

/-- `Divergences` of `corpus.rs`. -/
structure Divergences where
  bigrams : ℝ
  trigrams : ℝ

section
open Classical

/-- One order of `CorpusStats::compute_kl`.  Iterates the stored map of the target
(`obsT` with values `fT`), keeps the `if *f != 0.0` guard of the source, and
looks the key up in the reference map with the base frequency as default
(`q.bigrams_freq.get(bg).unwrap_or(&q.bg_base_freq)`). -/
noncomputable def klTerm {G : Type} [DecidableEq G] (obsT : Finset G) (fT : G → ℝ)
    (obsR : Finset G) (fR : G → ℝ) (base : ℝ) : ℝ :=
  ∑ g ∈ obsT,
    if fT g ≠ 0 then fT g * Real.log (fT g / (if g ∈ obsR then fR g else base)) else 0

/-- `CorpusStats::compute_kl(&self, q)`. -/
noncomputable def CorpusStats.compute_kl (self q : CorpusStats) : Divergences where
  bigrams := klTerm self.bgObs self.bigrams_freq q.bgObs q.bigrams_freq q.bg_base_freq
  trigrams := klTerm self.tgObs self.trigrams_freq q.tgObs q.trigrams_freq q.tg_base_freq

/-- Modelled from the spec: the strict-architecture list of §6.  `is_strict` is
imported by `main.rs` from `crate::corpus`, but its definition is not among the
provided sources; the spec fixes it as exact membership in this hardcoded list. -/
def strict_arch_list : List String :=
  ["OCaml", "PIC10", "PIC16", "PIC18", "PIC24", "6502", "#6502#cc65", "TI_MSP430",
   "IA-64", "Cell-SPU", "AVR", "FR-V", "M68k", "RL78", "HP-PA", "FR30", "ARC32eb",
   "Epiphany", "MIPS16", "Stormy16", "Visium", "M32C", "CLIPPER", "TMS320C2x",
   "TMS320C6x", "i860", "8051", "Cray", "MCore", "V850", "NDS32", "CompactRISC",
   "WE32000"]

/-- Modelled from the spec: exact-match membership test on the strict list
(unknown architectures are non-strict). -/
def is_strict (arch : String) : Bool := strict_arch_list.contains arch

/-- `RangeResult` of `main.rs`: per-range winner, its divergence, and the mean
and population variance of the divergences across all architectures. -/
structure RangeResult where
  arch : String
  div : ℝ
  range_mean : ℝ
  range_var : ℝ

/-- `final_range_result` of `main.rs`: the decision heuristic. -/
noncomputable def final_range_result (res_bg res_tg : RangeResult) : Option String :=
  let std_deviation_bg := Real.sqrt res_bg.range_var
  let std_deviation_tg := Real.sqrt res_tg.range_var
  let bgT : ℝ × ℝ × ℝ := if is_strict res_bg.arch then (4.0, 2.5, 1.5) else (5.0, 2.0, 1.0)
  let tgT : ℝ × ℝ × ℝ := if is_strict res_tg.arch then (5.0, 2.5, 1.5) else (6.0, 2.0, 1.0)
  let max_abs_div_bg := bgT.1
  let instant_std_dev_bg := bgT.2.1
  let comm_std_dev_bg := bgT.2.2
  let max_abs_div_tg := tgT.1
  let instant_std_dev_tg := tgT.2.1
  let comm_std_dev_tg := tgT.2.2
  if res_bg.div > max_abs_div_bg ∧ res_tg.div > max_abs_div_tg then
    none
  else if res_tg.div < res_tg.range_mean - instant_std_dev_tg * std_deviation_tg then
    some res_tg.arch
  else if res_bg.div < res_bg.range_mean - instant_std_dev_bg * std_deviation_bg then
    some res_bg.arch
  else if res_bg.div < res_bg.range_mean - comm_std_dev_bg * std_deviation_bg ∧
      res_tg.div < res_tg.range_mean - comm_std_dev_tg * std_deviation_tg ∧
      res_tg.arch = res_bg.arch then
    some res_tg.arch
  else if res_tg.div < res_tg.range_mean - 1.0 * std_deviation_tg ∧
      res_tg.arch.startsWith "_words" then
    some res_tg.arch
  else
    none

/-- The decision heuristic as the claim states it: six rules in the stated
order, thresholds chosen per order by the winning arch's strictness. -/
noncomputable def final_range_result_claim (res_bg res_tg : RangeResult) : Option String :=
  let max_abs_bg : ℝ := if is_strict res_bg.arch then 4.0 else 5.0
  let instant_bg : ℝ := if is_strict res_bg.arch then 2.5 else 2.0
  let comm_bg : ℝ := if is_strict res_bg.arch then 1.5 else 1.0
  let max_abs_tg : ℝ := if is_strict res_tg.arch then 5.0 else 6.0
  let instant_tg : ℝ := if is_strict res_tg.arch then 2.5 else 2.0
  let comm_tg : ℝ := if is_strict res_tg.arch then 1.5 else 1.0
  if res_bg.div > max_abs_bg ∧ res_tg.div > max_abs_tg then
    none
  else if res_tg.div < res_tg.range_mean - instant_tg * Real.sqrt res_tg.range_var then
    some res_tg.arch
  else if res_bg.div < res_bg.range_mean - instant_bg * Real.sqrt res_bg.range_var then
    some res_bg.arch
  else if res_bg.div < res_bg.range_mean - comm_bg * Real.sqrt res_bg.range_var ∧
      res_tg.div < res_tg.range_mean - comm_tg * Real.sqrt res_tg.range_var ∧
      res_bg.arch = res_tg.arch then
    some res_tg.arch
  else if res_tg.div < res_tg.range_mean - Real.sqrt res_tg.range_var ∧
      res_tg.arch.startsWith "_words" then
    some res_tg.arch
  else
    none

end

/-- The half-window selection of `detect_code` in `main.rs`.  The fallthrough
arm expression `(l as f64).log2() as usize` is embedded as the exact `Nat.log2`. -/
def window (L : ℕ) : ℕ :=
  if 0x100001 ≤ L ∧ L ≤ 0x1000000 then 0x1000
  else if 0x20001 ≤ L ∧ L ≤ 0x100000 then 0x800
  else if 0x8001 ≤ L ∧ L ≤ 0x20000 then 0x400
  else if 0x1001 ≤ L ∧ L ≤ 0x8000 then 0x200
  else if L ≤ 0x1000 then 0x100
  else (L / (170 * Nat.log2 L)) &&& 0xFFFFF000

/-- The half-window table exactly as the claim states it. -/
def windowClaim (L : ℕ) : ℕ :=
  if L ≤ 0x1000 then 0x100
  else if L ≤ 0x8000 then 0x200
  else if L ≤ 0x20000 then 0x400
  else if L ≤ 0x100000 then 0x800
  else if L ≤ 0x1000000 then 0x1000
  else (L / (170 * Nat.log2 L)) &&& 0xFFFFF000

/-- The number of window starts emitted by `(0..L).step_by(w)`.  For `w = 0`
the source panics; here the count degenerates to `0` (no window is emitted). -/
def numWindows (L w : ℕ) : ℕ := (L + w - 1) / w

/-- The list of ranges `[start, min(L, start + 2w))` produced by `detect_code`,
in start order.  `step_by(0)` panics in Rust; with `window L = 0` this list is
empty (nothing is emitted). -/
def windowRanges (L : ℕ) : List (ℕ × ℕ) :=
  (List.range (numWindows L (window L))).map
    (fun i => (i * window L, min L (i * window L + 2 * window L)))

/-- The byte slice `&file_data[start..end]` of a window. -/
def windowSlice (data : List Byte) (p : ℕ × ℕ) : List Byte :=
  ((data.drop p.1).take (p.2 - p.1))

/-- The per-window target statistics built by `detect_code`:
`CorpusStats::new("target".to_string(), &file_data[start..end], 0.0)`. -/
noncomputable def windowStatsOf (data : List Byte) (p : ℕ × ℕ) : CorpusStats :=
  CorpusStats.new "target" (windowSlice data p) 0

/-- `calculate_mean` of `main.rs`. -/
noncomputable def calculate_mean (data : List ℝ) : ℝ := data.sum / (data.length : ℝ)

/-- `calculate_variance` of `main.rs` (population variance, divisor `N`). -/
noncomputable def calculate_variance (data : List ℝ) (mean : ℝ) : ℝ :=
  (data.map (fun x => (x - mean) ^ 2)).sum / (data.length : ℝ)

section
open Classical

/-- Sort a list of reals ascending, as `sort_unstable_by(partial_cmp)` does on
divergence values. -/
noncomputable def sortDivs (l : List ℝ) : List ℝ :=
  l.mergeSort (fun a b => decide (a ≤ b))

/-- The per-range aggregation of `From<DetectionResult>`: sort the
`(arch, div)` list by divergence, take the winner, and compute mean and
variance of all divergences.  `arches[0]` panics on an empty list; the model
returns a junk entry there (every source range has one entry per corpus arch). -/
noncomputable def rangeResultOf (l : List (String × ℝ)) : RangeResult :=
  let s := l.mergeSort (fun a b => decide (a.2 ≤ b.2))
  let divs := s.map (fun p => p.2)
  let mean := calculate_mean divs
  { arch := (s.headD ("", 0)).1
    div := (s.headD ("", 0)).2
    range_mean := mean
    range_var := calculate_variance divs mean }

end

/-- `DetectionResult` of `main.rs`.  The two `BTreeMap`s are association lists
in canonical key order; the two `HashMap`s are association lists whose list
order models the (run-dependent) iteration order. -/
structure DetectionResult where
  kl_bg_arch_to_range : List (String × List ((ℕ × ℕ) × ℝ))
  kl_tg_arch_to_range : List (String × List ((ℕ × ℕ) × ℝ))
  kl_bg_range_to_arch : List ((ℕ × ℕ) × List (String × ℝ))
  kl_tg_range_to_arch : List ((ℕ × ℕ) × List (String × ℝ))

/-- `win_sz` of `ProcessedDetectionResult`: the length of whatever range the
key iteration of the `HashMap` yields first (`keys().next().unwrap().len()`);
`none` models the panic on an empty map. -/
def winSz (d : DetectionResult) : Option ℕ :=
  d.kl_bg_range_to_arch.head?.map (fun p => p.1.2 - p.1.1)

/-- The arch numbering of `ProcessedDetectionResult`: enumeration order of the
`BTreeMap` `kl_bg_arch_to_range`. -/
def archToIdx (d : DetectionResult) : List (String × ℕ) :=
  d.kl_bg_arch_to_range.enum.map (fun p => (p.2.1, p.1))

/-- All divergences of one order, flattened from the arch-to-range `BTreeMap`
(`values().flat_map(...)`). -/
def allDivsOf (m : List (String × List ((ℕ × ℕ) × ℝ))) : List ℝ :=
  m.flatMap (fun p => p.2.map (fun q => q.2))

/-- `max_kl` of one order: last element of the ascending-sorted divergence
list; `none` models the `unwrap` panic on an empty list. -/
noncomputable def maxKlOf (m : List (String × List ((ℕ × ℕ) × ℝ))) : Option ℝ :=
  (sortDivs (allDivsOf m)).getLast?

section
open Classical

/-- `min_kl` of one order: the first sorted divergence that is not below
`0.1`; `none` models the `find(...).unwrap()` panic when every divergence is
below the floor. -/
noncomputable def minKlOf (m : List (String × List ((ℕ × ℕ) × ℝ))) : Option ℝ :=
  (sortDivs (allDivsOf m)).find? (fun d => decide (¬ d < 0.1))

end

/-- Association-list lookup by key, modelling `HashMap::get` on the modelled
iteration list. -/
def alookup {β : Type} (r : ℕ × ℕ) : List ((ℕ × ℕ) × β) → Option β
  | [] => none
  | p :: t => if p.1 = r then some p.2 else alookup r t

/-- The final label of a range, as `From<DetectionResult>` computes it:
aggregate both orders for the range and run the heuristic.  `none` models the
`unwrap` panic when the range is missing from either map. -/
noncomputable def finalLabelOf (d : DetectionResult) (r : ℕ × ℕ) : Option (Option String) :=
  match alookup r d.kl_bg_range_to_arch, alookup r d.kl_tg_range_to_arch with
  | some lb, some lt => some (final_range_result (rangeResultOf lb) (rangeResultOf lt))
  | _, _ => none

/-- All bigram divergences the pipeline produces for a file: one per
(window, reference) pair, in the deterministic collection order. -/
noncomputable def pipelineDivsBg (refs : List CorpusStats) (data : List Byte) : List ℝ :=
  (windowRanges data.length).flatMap
    (fun p => refs.map (fun r => ((windowStatsOf data p).compute_kl r).bigrams))

/-- All trigram divergences the pipeline produces for a file. -/
noncomputable def pipelineDivsTg (refs : List CorpusStats) (data : List Byte) : List ℝ :=
  (windowRanges data.length).flatMap
    (fun p => refs.map (fun r => ((windowStatsOf data p).compute_kl r).trigrams))

section
open Classical

/-- The `min_kl` computation applied to a raw divergence list: sort ascending,
then find the first value not below `0.1`.  A `none` result means that in the source
`find(...).unwrap()` panics. -/
noncomputable def minKlOfDivs (l : List ℝ) : Option ℝ :=
  (sortDivs l).find? (fun d => decide (¬ d < 0.1))

end

/-- The probability-conservation property claimed for a `CorpusStats`, at one
order with n-gram space size `space`. -/
noncomputable def conservesAt (space : ℕ) {G : Type} (obs : Finset G) (freq : G → ℝ)
    (base : ℝ) : Prop :=
  base * ((space : ℝ) - obs.card) + ∑ g ∈ obs, freq g = 1

/-- The three per-order conservation identities claimed for `CorpusStats::new`. -/
noncomputable def newConserves (arch : String) (data : List Byte) (b : ℝ) : Prop :=
  conservesAt 256 (CorpusStats.new arch data b).ugObs
      (CorpusStats.new arch data b).ungrams_freq (CorpusStats.new arch data b).ug_base_freq ∧
  conservesAt (256 ^ 2) (CorpusStats.new arch data b).bgObs
      (CorpusStats.new arch data b).bigrams_freq (CorpusStats.new arch data b).bg_base_freq ∧
  conservesAt (256 ^ 3) (CorpusStats.new arch data b).tgObs
      (CorpusStats.new arch data b).trigrams_freq (CorpusStats.new arch data b).tg_base_freq

/-- The window layout claimed for `detect_code`: every emitted window is
`[i*w, min(L, i*w + 2w))` with start below `L`, every such window is emitted,
the windows cover `[0, L)`, and consecutive windows overlap by exactly `w`
except possibly at the final, clipped window. -/
def windowLayoutProp (L : ℕ) : Prop :=
  (∀ p ∈ windowRanges L, ∃ i < numWindows L (window L),
      p = (i * window L, min L (i * window L + 2 * window L)) ∧ i * window L < L) ∧
  (∀ i < numWindows L (window L),
      (i * window L, min L (i * window L + 2 * window L)) ∈ windowRanges L) ∧
  (∀ x < L, ∃ p ∈ windowRanges L, p.1 ≤ x ∧ x < p.2) ∧
  (∀ i, i + 1 < numWindows L (window L) →
      min L (i * window L + 2 * window L) - (i + 1) * window L = window L ∨
      (i + 2 = numWindows L (window L) ∧
        min L (i * window L + 2 * window L) = L ∧ L < i * window L + 2 * window L))

/-- Order-independence of the aggregation outputs named by the determinism
claim, `win_sz` excepted: arch numbering, global extrema of both orders, and
the per-range final labels agree for the two detection results. -/
noncomputable def aggregationAgrees (d d' : DetectionResult) : Prop :=
  archToIdx d = archToIdx d' ∧
  maxKlOf d.kl_bg_arch_to_range = maxKlOf d'.kl_bg_arch_to_range ∧
  minKlOf d.kl_bg_arch_to_range = minKlOf d'.kl_bg_arch_to_range ∧
  maxKlOf d.kl_tg_arch_to_range = maxKlOf d'.kl_tg_arch_to_range ∧
  minKlOf d.kl_tg_arch_to_range = minKlOf d'.kl_tg_arch_to_range ∧
  ∀ r, finalLabelOf d r = finalLabelOf d' r

/-- The degenerate shape of `CorpusStats::new(arch, data, 0.0)` on data
shorter than 3 bytes: empty maps, all three `Qtotal`s equal to `0`, and each
stored base frequency literally the quotient `0 / 0` (IEEE `NaN`; `0` in the
real embedding). -/
noncomputable def shortStatsDegenerate (arch : String) (data : List Byte) : Prop :=
  (CorpusStats.new arch data 0).ugObs = ∅ ∧
  (CorpusStats.new arch data 0).bgObs = ∅ ∧
  (CorpusStats.new arch data 0).tgObs = ∅ ∧
  qtotal 256 0 (ugList data) = 0 ∧
  qtotal (256 ^ 2) 0 (bgList data) = 0 ∧
  qtotal (256 ^ 3) 0 (tgList data) = 0 ∧
  (CorpusStats.new arch data 0).ug_base_freq = 0 / 0 ∧
  (CorpusStats.new arch data 0).bg_base_freq = 0 / 0 ∧
  (CorpusStats.new arch data 0).tg_base_freq = 0 / 0

/-- A two-window detection content as a 300-byte file produces: ranges
`[0, 300)` and `[256, 300)` with one reference arch.  The hash-map iteration
order here lists the full window first. -/
def dTwoWin : DetectionResult where
  kl_bg_arch_to_range := [("a", [((0, 300), (0 : ℝ)), ((256, 300), 0)])]
  kl_tg_arch_to_range := [("a", [((0, 300), 0), ((256, 300), 0)])]
  kl_bg_range_to_arch := [((0, 300), [("a", 0)]), ((256, 300), [("a", 0)])]
  kl_tg_range_to_arch := [((0, 300), [("a", 0)]), ((256, 300), [("a", 0)])]

/-- The same detection content as `dTwoWin`, with the hash maps iterated in
the opposite order (the clipped final window first). -/
def dTwoWinRev : DetectionResult where
  kl_bg_arch_to_range := [("a", [((0, 300), (0 : ℝ)), ((256, 300), 0)])]
  kl_tg_arch_to_range := [("a", [((0, 300), 0), ((256, 300), 0)])]
  kl_bg_range_to_arch := [((256, 300), [("a", 0)]), ((0, 300), [("a", 0)])]
  kl_tg_range_to_arch := [((256, 300), [("a", 0)]), ((0, 300), [("a", 0)])]

/-- A one-window detection content, used to instantiate the order-independence
statement at a concrete input. -/
def dOneWin : DetectionResult where
  kl_bg_arch_to_range := [("a", [((0, 2), (0 : ℝ))])]
  kl_tg_arch_to_range := [("a", [((0, 2), 0)])]
  kl_bg_range_to_arch := [((0, 2), [("a", 0)])]
  kl_tg_range_to_arch := [((0, 2), [("a", 0)])]

/-! ### Basic facts about the n-gram lists -/

@[simp] theorem windows3_nil : windows3 [] = [] := rfl

@[simp] theorem windows3_one (x : Byte) : windows3 [x] = [] := rfl

@[simp] theorem windows3_two (x y : Byte) : windows3 [x, y] = [] := rfl

@[simp] theorem windows3_cons (x y z : Byte) (rest : List Byte) :
    windows3 (x :: y :: z :: rest) = (x, y, z) :: windows3 (y :: z :: rest) := rfl


theorem windows3_length (l : List Byte) : (windows3 l).length = l.length - 2 := by
  match l with
  | [] => rfl
  | [x] => rfl
  | [x, y] => rfl
  | x :: y :: z :: rest =>
    rw [windows3_cons]
    simp only [List.length_cons]
    rw [windows3_length (y :: z :: rest)]
    simp only [List.length_cons]
    omega

theorem ugList_length (l : List Byte) : (ugList l).length = l.length - 2 := by
  rw [ugList, List.length_map, windows3_length]

theorem bgList_length (l : List Byte) : (bgList l).length = l.length - 2 := by
  rw [bgList, List.length_map, windows3_length]

theorem tgList_length (l : List Byte) : (tgList l).length = l.length - 2 := by
  rw [tgList, windows3_length]

theorem sum_count_real {G : Type} [DecidableEq G] (l : List G) :
    ∑ g ∈ l.toFinset, (l.count g : ℝ) = l.length := by
  rw [← List.sum_toFinset_count_eq_length l]
  push_cast
  rfl

theorem card_toFinset_le_space {G : Type} [DecidableEq G] [Fintype G] (l : List G)
    (space : ℕ) (hs : Fintype.card G ≤ space) : l.toFinset.card ≤ space :=
  le_trans (Finset.card_le_univ _) hs

/-- `Qtotal` collapses to `b * 256^k + N` where `N` is the number of windows. -/
theorem qtotal_eq {G : Type} [DecidableEq G] (space : ℕ) (b : ℝ) (l : List G)
    (h : l.toFinset.card ≤ space) :
    qtotal space b l = b * space + l.length := by
  unfold qtotal storedCount
  rw [Finset.sum_add_distrib, sum_count_real, Finset.sum_const, nsmul_eq_mul,
    Nat.cast_sub h]
  ring

theorem qtotal_pos {G : Type} [DecidableEq G] (space : ℕ) (b : ℝ) (l : List G)
    (hcard : l.toFinset.card ≤ space) (hspace : 0 < space) (hb : 0 ≤ b)
    (h : 0 < b ∨ l ≠ []) : 0 < qtotal space b l := by
  rw [qtotal_eq space b l hcard]
  rcases h with hb' | hl
  · have h1 : 0 < b * space := by positivity
    have h2 : (0:ℝ) ≤ l.length := by positivity
    linarith
  · have h1 : 0 < l.length := List.length_pos.mpr hl
    have h2 : (1:ℝ) ≤ l.length := by exact_mod_cast h1
    nlinarith

/-- Probability conservation for one order: if `Qtotal` is nonzero, the base
frequency times the number of unseen n-grams plus the observed frequencies
sums to `1`. -/
theorem conservation {G : Type} [DecidableEq G] (space : ℕ) (b : ℝ) (l : List G)
    (hcard : l.toFinset.card ≤ space) (hQ : qtotal space b l ≠ 0) :
    gramBase space b l * ((space : ℝ) - l.toFinset.card) +
      ∑ g ∈ l.toFinset, gramFreq space b l g = 1 := by
  unfold gramBase gramFreq
  rw [← Finset.sum_div]
  have hnum : b * ((space : ℝ) - l.toFinset.card) + ∑ g ∈ l.toFinset, storedCount b l g =
      qtotal space b l := by
    unfold qtotal
    rw [Nat.cast_sub hcard]
  field_simp
  linarith [hnum]

/-! ### Cardinality of the n-gram spaces -/

theorem card_byte : Fintype.card Byte = 256 := Fintype.card_fin 256

theorem card_byte2 : Fintype.card (Byte × Byte) = 256 ^ 2 := by
  rw [Fintype.card_prod, card_byte]
  norm_num

theorem card_byte3 : Fintype.card (Byte × Byte × Byte) = 256 ^ 3 := by
  rw [Fintype.card_prod, Fintype.card_prod, card_byte]
  norm_num

theorem ug_card_le (data : List Byte) : (ugList data).toFinset.card ≤ 256 :=
  card_toFinset_le_space _ _ (le_of_eq card_byte)

theorem bg_card_le (data : List Byte) : (bgList data).toFinset.card ≤ 256 ^ 2 :=
  card_toFinset_le_space _ _ (le_of_eq card_byte2)

theorem tg_card_le (data : List Byte) : (tgList data).toFinset.card ≤ 256 ^ 3 :=
  card_toFinset_le_space _ _ (le_of_eq card_byte3)

theorem conservation_of_new (arch : String) (data : List Byte) (b : ℝ) (hb : 0 ≤ b)
    (h : 0 < b ∨ 3 ≤ data.length) :
    conservesAt 256 (CorpusStats.new arch data b).ugObs
        (CorpusStats.new arch data b).ungrams_freq (CorpusStats.new arch data b).ug_base_freq ∧
    conservesAt (256 ^ 2) (CorpusStats.new arch data b).bgObs
        (CorpusStats.new arch data b).bigrams_freq (CorpusStats.new arch data b).bg_base_freq ∧
    conservesAt (256 ^ 3) (CorpusStats.new arch data b).tgObs
        (CorpusStats.new arch data b).trigrams_freq (CorpusStats.new arch data b).tg_base_freq := by
  have hne : ∀ {G : Type} [DecidableEq G] (l : List G), l.length = data.length - 2 →
      0 < b ∨ l ≠ [] := by
    intro G _ l hlen
    rcases h with hb' | hd
    · exact Or.inl hb'
    · refine Or.inr ?_
      have : 0 < l.length := by omega
      exact List.ne_nil_of_length_pos this
  refine ⟨?_, ?_, ?_⟩
  · have hQ := qtotal_pos 256 b (ugList data) (ug_card_le data) (by norm_num) hb
      (hne _ (ugList_length data))
    exact conservation 256 b (ugList data) (ug_card_le data) (ne_of_gt hQ)
  · have hQ := qtotal_pos (256 ^ 2) b (bgList data) (bg_card_le data) (by norm_num) hb
      (hne _ (bgList_length data))
    exact conservation (256 ^ 2) b (bgList data) (bg_card_le data) (ne_of_gt hQ)
  · have hQ := qtotal_pos (256 ^ 3) b (tgList data) (tg_card_le data) (by norm_num) hb
      (hne _ (tgList_length data))
    exact conservation (256 ^ 3) b (tgList data) (tg_card_le data) (ne_of_gt hQ)

/-! ### The window planner -/

theorem mem_windowRanges (L : ℕ) (p : ℕ × ℕ) :
    p ∈ windowRanges L ↔ ∃ i < numWindows L (window L),
      p = (i * window L, min L (i * window L + 2 * window L)) := by
  unfold windowRanges
  simp only [List.mem_map, List.mem_range]
  constructor
  · rintro ⟨i, hi, rfl⟩
    exact ⟨i, hi, rfl⟩
  · rintro ⟨i, hi, rfl⟩
    exact ⟨i, hi, rfl⟩

theorem start_lt_of_lt_numWindows (L w i : ℕ) (hw : 0 < w) (hi : i < numWindows L w) :
    i * w < L := by
  unfold numWindows at hi
  have h1 : (i + 1) * w ≤ L + w - 1 := by
    have := (Nat.le_div_iff_mul_le hw).mp (Nat.succ_le_of_lt hi)
    exact this
  have h2 : (i + 1) * w = i * w + w := by ring
  omega

theorem lt_numWindows_of_start_lt (L w i : ℕ) (hw : 0 < w) (hi : i * w < L) :
    i < numWindows L w := by
  unfold numWindows
  have h1 : i + 1 ≤ (L + w - 1) / w := by
    rw [Nat.le_div_iff_mul_le hw]
    have h2 : (i + 1) * w = i * w + w := by ring
    omega
  omega

theorem coverage_of_windows (L w x : ℕ) (hw : 0 < w) (hx : x < L) :
    ∃ i < numWindows L w, i * w ≤ x ∧ x < min L (i * w + 2 * w) := by
  refine ⟨x / w, ?_, Nat.div_mul_le_self x w, ?_⟩
  · apply lt_numWindows_of_start_lt L w _ hw
    exact lt_of_le_of_lt (Nat.div_mul_le_self x w) hx
  · have h1 : w * (x / w) + x % w = x := Nat.div_add_mod x w
    have h2 : x % w < w := Nat.mod_lt x hw
    have h3 : w * (x / w) = x / w * w := by ring
    rw [lt_min_iff]
    constructor
    · exact hx
    · omega

theorem overlap_of_windows (L w i : ℕ) (hw : 0 < w) (hi : i + 1 < numWindows L w) :
    min L (i * w + 2 * w) - (i + 1) * w = w ∨
      (i + 2 = numWindows L w ∧ min L (i * w + 2 * w) = L ∧ L < i * w + 2 * w) := by
  have hexp1 : (i + 1) * w = i * w + w := by ring
  rcases le_or_lt (i * w + 2 * w) L with hle | hlt
  · left
    rw [min_eq_right hle]
    omega
  · right
    have hni : i + 2 ≤ numWindows L w := hi
    have hstart : (i + 1) * w < L := start_lt_of_lt_numWindows L w (i + 1) hw hi
    have hup : numWindows L w ≤ i + 2 := by
      unfold numWindows
      have h4 : (L + w - 1) / w < i + 3 := by
        rw [Nat.div_lt_iff_lt_mul hw]
        have h5 : (i + 3) * w = i * w + 2 * w + w := by ring
        omega
      omega
    exact ⟨le_antisymm hni hup, min_eq_left (le_of_lt hlt), hlt⟩

/-! ### The decision heuristic -/

theorem final_range_result_isSome_iff (rb rt : RangeResult) :
    (final_range_result rb rt).isSome ↔
      ¬(rb.div > (if is_strict rb.arch then (4.0:ℝ) else 5.0) ∧
          rt.div > (if is_strict rt.arch then (5.0:ℝ) else 6.0)) ∧
      (rt.div < rt.range_mean -
          (if is_strict rt.arch then (2.5:ℝ) else 2.0) * Real.sqrt rt.range_var ∨
        rb.div < rb.range_mean -
          (if is_strict rb.arch then (2.5:ℝ) else 2.0) * Real.sqrt rb.range_var ∨
        (rb.div < rb.range_mean -
            (if is_strict rb.arch then (1.5:ℝ) else 1.0) * Real.sqrt rb.range_var ∧
          rt.div < rt.range_mean -
            (if is_strict rt.arch then (1.5:ℝ) else 1.0) * Real.sqrt rt.range_var ∧
          rt.arch = rb.arch) ∨
        (rt.div < rt.range_mean - 1.0 * Real.sqrt rt.range_var ∧
          rt.arch.startsWith "_words")) := by
  cases hb : is_strict rb.arch <;> cases ht : is_strict rt.arch <;>
    simp only [final_range_result, hb, ht, if_true, if_false, Bool.false_eq_true] <;>
    split_ifs <;> simp_all

theorem final_range_result_eq_claim (res_bg res_tg : RangeResult) :
    final_range_result res_bg res_tg = final_range_result_claim res_bg res_tg := by
  have e1 : (1.0:ℝ) * Real.sqrt res_tg.range_var = Real.sqrt res_tg.range_var := by norm_num
  have e2 : (1.0:ℝ) * Real.sqrt res_bg.range_var = Real.sqrt res_bg.range_var := by norm_num
  have e3 : (res_bg.arch = res_tg.arch) = (res_tg.arch = res_bg.arch) := propext eq_comm
  cases hb : is_strict res_bg.arch <;> cases ht : is_strict res_tg.arch <;>
    simp only [final_range_result, final_range_result_claim, hb, ht, if_true, if_false,
      Bool.false_eq_true] <;>
    simp only [e1, e2, e3]

theorem final_range_result_mono_div_tg (rb : RangeResult) (a : String) (m v t t' : ℝ)
    (hlt : t' < t) (h : (final_range_result rb ⟨a, t, m, v⟩).isSome) :
    (final_range_result rb ⟨a, t', m, v⟩).isSome := by
  rw [final_range_result_isSome_iff] at h ⊢
  dsimp only at h ⊢
  obtain ⟨h1, h2⟩ := h
  constructor
  · rintro ⟨hb', ht'⟩
    exact h1 ⟨hb', by linarith⟩
  · rcases h2 with h | h | ⟨ha, hb', hc⟩ | ⟨ha, hb'⟩
    · exact Or.inl (by linarith)
    · exact Or.inr (Or.inl h)
    · exact Or.inr (Or.inr (Or.inl ⟨ha, by linarith, hc⟩))
    · exact Or.inr (Or.inr (Or.inr ⟨by linarith, hb'⟩))

/-! ### Divergence bounds -/

theorem gibbs_nonneg {G : Type} [DecidableEq G] (S : Finset G) (p q : G → ℝ)
    (hp : ∀ g ∈ S, 0 < p g) (hq : ∀ g ∈ S, 0 < q g)
    (hsp : ∑ g ∈ S, p g = 1) (hsq : ∑ g ∈ S, q g ≤ 1) :
    0 ≤ ∑ g ∈ S, p g * Real.log (p g / q g) := by
  have key : ∀ g ∈ S, p g - q g ≤ p g * Real.log (p g / q g) := by
    intro g hg
    have hp' := hp g hg
    have hq' := hq g hg
    have hlog : Real.log (q g / p g) ≤ q g / p g - 1 :=
      Real.log_le_sub_one_of_pos (by positivity)
    have hrw : Real.log (p g / q g) = - Real.log (q g / p g) := by
      rw [← Real.log_inv]
      congr 1
      field_simp
    have hmul : p g * Real.log (q g / p g) ≤ p g * (q g / p g - 1) :=
      mul_le_mul_of_nonneg_left hlog hp'.le
    have hid : p g * (q g / p g - 1) = q g - p g := by
      field_simp
    rw [hrw]
    linarith
  have h1 : ∑ g ∈ S, (p g - q g) ≤ ∑ g ∈ S, p g * Real.log (p g / q g) :=
    Finset.sum_le_sum key
  rw [Finset.sum_sub_distrib, hsp] at h1
  linarith

theorem gibbs_le_log {G : Type} [DecidableEq G] (S : Finset G) (p q : G → ℝ) (c : ℝ)
    (hp : ∀ g ∈ S, 0 < p g) (hq : ∀ g ∈ S, 0 < q g)
    (hc : ∀ g ∈ S, p g / q g ≤ c) (hsp : ∑ g ∈ S, p g = 1) :
    ∑ g ∈ S, p g * Real.log (p g / q g) ≤ Real.log c := by
  have key : ∀ g ∈ S, p g * Real.log (p g / q g) ≤ p g * Real.log c := by
    intro g hg
    refine mul_le_mul_of_nonneg_left ?_ (hp g hg).le
    refine Real.log_le_log ?_ (hc g hg)
    have := hp g hg
    have := hq g hg
    positivity
  have h1 : ∑ g ∈ S, p g * Real.log (p g / q g) ≤ ∑ g ∈ S, p g * Real.log c :=
    Finset.sum_le_sum key
  rw [← Finset.sum_mul, hsp, one_mul] at h1
  exact h1

theorem count_pos_of_mem_toFinset {G : Type} [DecidableEq G] {l : List G} {g : G}
    (h : g ∈ l.toFinset) : 0 < l.count g :=
  List.count_pos_iff.mpr (List.mem_toFinset.mp h)

theorem gramFreq_pos {G : Type} [DecidableEq G] (space : ℕ) (b : ℝ) (l : List G) (g : G)
    (hb : 0 ≤ b) (hg : g ∈ l.toFinset) (hQ : 0 < qtotal space b l) :
    0 < gramFreq space b l g := by
  unfold gramFreq storedCount
  have h1 : 0 < l.count g := count_pos_of_mem_toFinset hg
  have h2 : (1:ℝ) ≤ (l.count g : ℝ) := by exact_mod_cast h1
  positivity

theorem gramBase_pos {G : Type} [DecidableEq G] (space : ℕ) (b : ℝ) (l : List G)
    (hb : 0 < b) (hQ : 0 < qtotal space b l) : 0 < gramBase space b l := by
  unfold gramBase
  positivity

/-- With no smoothing, the observed frequencies of a nonempty n-gram list sum
to exactly `1`. -/
theorem sum_gramFreq_base_zero {G : Type} [DecidableEq G] (space : ℕ) (l : List G)
    (hcard : l.toFinset.card ≤ space) (hl : l ≠ []) :
    ∑ g ∈ l.toFinset, gramFreq space 0 l g = 1 := by
  have hQ : 0 < qtotal space 0 l := by
    rw [qtotal_eq space 0 l hcard]
    have h1 : 0 < l.length := List.length_pos.mpr hl
    have h2 : (1:ℝ) ≤ l.length := by exact_mod_cast h1
    linarith
  have h := conservation space 0 l hcard (ne_of_gt hQ)
  unfold gramBase at h
  simp only [zero_div, zero_mul, zero_add] at h
  exact h

/-- The reference-side lookup value: the stored frequency for observed keys,
the base frequency for unseen ones. -/
theorem sum_refLookup_univ {G : Type} [DecidableEq G] [Fintype G] (space : ℕ) (b : ℝ)
    (l : List G) (hsp : Fintype.card G = space) (hQ : qtotal space b l ≠ 0) :
    ∑ g ∈ Finset.univ,
      (if g ∈ l.toFinset then gramFreq space b l g else gramBase space b l) = 1 := by
  have hsplit : ∀ g : G, (if g ∈ l.toFinset then gramFreq space b l g else gramBase space b l)
      = (if g ∈ l.toFinset then gramFreq space b l g else 0) +
        (if g ∈ l.toFinsetᶜ then gramBase space b l else 0) := by
    intro g
    by_cases hg : g ∈ l.toFinset <;> simp [hg]
  rw [Finset.sum_congr rfl (fun g _ => hsplit g), Finset.sum_add_distrib,
    Finset.sum_ite_mem, Finset.sum_ite_mem, Finset.univ_inter, Finset.univ_inter,
    Finset.sum_const, nsmul_eq_mul, Finset.card_compl]
  have hcard : l.toFinset.card ≤ space := hsp ▸ Finset.card_le_univ _
  have h := conservation space b l hcard hQ
  rw [Nat.cast_sub (Finset.card_le_univ _), hsp]
  linarith

theorem sum_refLookup_le_one {G : Type} [DecidableEq G] [Fintype G] (space : ℕ) (b : ℝ)
    (l : List G) (S : Finset G) (hb : 0 ≤ b) (hsp : Fintype.card G = space)
    (hQ : 0 < qtotal space b l) :
    ∑ g ∈ S, (if g ∈ l.toFinset then gramFreq space b l g else gramBase space b l) ≤ 1 := by
  have hnonneg : ∀ g ∈ Finset.univ,
      0 ≤ (if g ∈ l.toFinset then gramFreq space b l g else gramBase space b l) := by
    intro g _
    by_cases hg : g ∈ l.toFinset
    · simp only [hg, if_true]
      exact (gramFreq_pos space b l g hb hg hQ).le
    · simp only [hg, if_false]
      unfold gramBase
      positivity
  have h1 : ∑ g ∈ S, (if g ∈ l.toFinset then gramFreq space b l g else gramBase space b l) ≤
      ∑ g ∈ Finset.univ,
        (if g ∈ l.toFinset then gramFreq space b l g else gramBase space b l) :=
    Finset.sum_le_sum_of_subset_of_nonneg (Finset.subset_univ S)
      (fun g hg _ => hnonneg g hg)
  rw [sum_refLookup_univ space b l hsp (ne_of_gt hQ)] at h1
  exact h1

theorem klTerm_eq_sum {G : Type} [DecidableEq G] (S obsR : Finset G) (fT fR : G → ℝ)
    (base : ℝ) (hf : ∀ g ∈ S, fT g ≠ 0) :
    klTerm S fT obsR fR base =
      ∑ g ∈ S, fT g * Real.log (fT g / (if g ∈ obsR then fR g else base)) :=
  Finset.sum_congr rfl (fun g hg => if_pos (hf g hg))

/-- Non-negativity of one order of `compute_kl` for an unsmoothed nonempty
target against a positively smoothed reference. -/
theorem klTerm_nonneg {G : Type} [DecidableEq G] [Fintype G] (space : ℕ)
    (lT lR : List G) (b : ℝ) (hb : 0 < b) (hT : lT ≠ [])
    (hsp : Fintype.card G = space) :
    0 ≤ klTerm lT.toFinset (gramFreq space 0 lT) lR.toFinset (gramFreq space b lR)
        (gramBase space b lR) := by
  have hcardT : lT.toFinset.card ≤ space := hsp ▸ Finset.card_le_univ _
  have hcardR : lR.toFinset.card ≤ space := hsp ▸ Finset.card_le_univ _
  obtain ⟨x, _⟩ := List.exists_mem_of_ne_nil lT hT
  have hspace : 0 < space := by
    rw [← hsp]
    exact @Fintype.card_pos G _ ⟨x⟩
  have hQT : 0 < qtotal space 0 lT := by
    rw [qtotal_eq space 0 lT hcardT]
    have h1 : 0 < lT.length := List.length_pos.mpr hT
    have h2 : (1:ℝ) ≤ lT.length := by exact_mod_cast h1
    linarith
  have hQR : 0 < qtotal space b lR := qtotal_pos space b lR hcardR hspace hb.le (Or.inl hb)
  have hp : ∀ g ∈ lT.toFinset, 0 < gramFreq space 0 lT g :=
    fun g hg => gramFreq_pos space 0 lT g le_rfl hg hQT
  rw [klTerm_eq_sum _ _ _ _ _ (fun g hg => ne_of_gt (hp g hg))]
  refine gibbs_nonneg lT.toFinset _ _ hp ?_ ?_ ?_
  · intro g _
    by_cases hg : g ∈ lR.toFinset
    · simp only [hg, if_true]
      exact gramFreq_pos space b lR g hb.le hg hQR
    · simp only [hg, if_false]
      exact gramBase_pos space b lR hb hQR
  · exact sum_gramFreq_base_zero space lT hcardT hT
  · exact sum_refLookup_le_one space b lR lT.toFinset hb.le hsp hQR

/-- One order of `compute_kl` of an unsmoothed target against the smoothed
reference built from the same data is at most `log ((b * space + N) / N)`
where `N` is the number of 3-windows. -/
theorem klTerm_self_le_log {G : Type} [DecidableEq G] [Fintype G] (space : ℕ)
    (l : List G) (b : ℝ) (hb : 0 < b) (hl : l ≠ [])
    (hsp : Fintype.card G = space) :
    klTerm l.toFinset (gramFreq space 0 l) l.toFinset (gramFreq space b l)
        (gramBase space b l) ≤
      Real.log ((b * space + l.length) / l.length) := by
  have hcard : l.toFinset.card ≤ space := hsp ▸ Finset.card_le_univ _
  have hN : (1:ℝ) ≤ l.length := by
    have h1 : 0 < l.length := List.length_pos.mpr hl
    exact_mod_cast h1
  have hNpos : (0:ℝ) < l.length := by linarith
  obtain ⟨x, _⟩ := List.exists_mem_of_ne_nil l hl
  have hspace : 0 < space := by
    rw [← hsp]
    exact @Fintype.card_pos G _ ⟨x⟩
  have hspR : (0:ℝ) < space := by exact_mod_cast hspace
  have hQT : qtotal space 0 l = (l.length : ℝ) := by
    rw [qtotal_eq space 0 l hcard]
    ring
  have hQTpos : 0 < qtotal space 0 l := by
    rw [hQT]
    exact hNpos
  have hQR : qtotal space b l = b * space + l.length := qtotal_eq space b l hcard
  have hQRpos : 0 < qtotal space b l := by
    rw [hQR]
    positivity
  have hp : ∀ g ∈ l.toFinset, 0 < gramFreq space 0 l g :=
    fun g hg => gramFreq_pos space 0 l g le_rfl hg hQTpos
  rw [klTerm_eq_sum _ _ _ _ _ (fun g hg => ne_of_gt (hp g hg))]
  refine gibbs_le_log l.toFinset _ _ ((b * space + l.length) / l.length) hp ?_ ?_
    (sum_gramFreq_base_zero space l hcard hl)
  · intro g hg
    simp only [hg, if_true]
    exact gramFreq_pos space b l g hb.le hg hQRpos
  · intro g hg
    simp only [hg, if_true]
    unfold gramFreq storedCount
    rw [hQT, hQR]
    have hm : (1:ℝ) ≤ (l.count g : ℝ) := by
      exact_mod_cast count_pos_of_mem_toFinset hg
    have hmb : ((l.count g : ℝ) + b) ≠ 0 := by positivity
    have hN0 : ((l.length : ℝ)) ≠ 0 := ne_of_gt hNpos
    have hQR0 : b * (space : ℝ) + (l.length : ℝ) ≠ 0 := by positivity
    have key : ((l.count g : ℝ) + 0) / (l.length : ℝ) /
        (((l.count g : ℝ) + b) / (b * (space : ℝ) + (l.length : ℝ))) =
        ((l.count g : ℝ) / ((l.count g : ℝ) + b)) *
          ((b * (space : ℝ) + (l.length : ℝ)) / (l.length : ℝ)) := by
      field_simp
      ring
    rw [key]
    have h1 : (l.count g : ℝ) / ((l.count g : ℝ) + b) ≤ 1 := by
      rw [div_le_one (by positivity)]
      linarith
    have h2 : 0 < (b * (space : ℝ) + (l.length : ℝ)) / (l.length : ℝ) := by positivity
    nlinarith

theorem log_onesix_lt_half : Real.log 1.6 < 1 / 2 := by
  rw [Real.log_lt_iff_lt_exp (by norm_num)]
  have hsq : Real.exp (1 / 2) * Real.exp (1 / 2) = Real.exp 1 := by
    rw [← Real.exp_add]
    norm_num
  nlinarith [Real.exp_pos (1 / 2), Real.exp_one_gt_d9]

theorem log_ratio_lt_half (N s : ℝ) (hN : 300000 ≤ N) (hs : 0 ≤ s) (hs2 : s ≤ 180000) :
    Real.log ((s + N) / N) < 1 / 2 := by
  have hNpos : 0 < N := by linarith
  have hratio : (s + N) / N ≤ 1.6 := by
    rw [div_le_iff₀ hNpos]
    nlinarith
  have hpos : 0 < (s + N) / N := by positivity
  exact lt_of_le_of_lt (Real.log_le_log hpos hratio) log_onesix_lt_half

theorem ngram_ne_nil {G : Type} [DecidableEq G] (l : List G) (n : ℕ)
    (hlen : l.length = n - 2) (h : 3 ≤ n) : l ≠ [] := by
  intro hnil
  rw [hnil] at hlen
  simp only [List.length_nil] at hlen
  omega

/-! ### Iteration-order independence of the aggregation -/

theorem alookup_perm {β : Type} {l l' : List ((ℕ × ℕ) × β)} (hp : l.Perm l') (r : ℕ × ℕ) :
    (l.map Prod.fst).Nodup → alookup r l = alookup r l' := by
  induction hp with
  | nil =>
    intro _
    rfl
  | cons x h ih =>
    intro hn
    simp only [List.map_cons, List.nodup_cons] at hn
    simp only [alookup]
    by_cases hx : x.1 = r
    · simp [hx]
    · simp only [hx, if_false]
      exact ih hn.2
  | swap x y t =>
    intro hn
    simp only [List.map_cons, List.nodup_cons, List.mem_cons] at hn
    have hxy : y.1 ≠ x.1 := fun h => hn.1 (Or.inl h)
    simp only [alookup]
    by_cases hy : y.1 = r <;> by_cases hx : x.1 = r <;> simp [hy, hx]
    exact absurd (hy.trans hx.symm) hxy
  | trans h1 h2 ih1 ih2 =>
    intro hn
    rw [ih1 hn]
    exact ih2 (((h1.map Prod.fst).nodup_iff).mp hn)

/-! ### Degenerate inputs -/

theorem windows3_short (data : List Byte) (h : data.length < 3) : windows3 data = [] := by
  match data, h with
  | [], _ => rfl
  | [x], _ => rfl
  | [x, y], _ => rfl
  | x :: y :: z :: rest, h => simp at h; omega

theorem qtotal_of_short {G : Type} [DecidableEq G] (space : ℕ) (l : List G)
    (h : l = []) : qtotal space 0 l = 0 := by
  subst h
  simp [qtotal]

theorem compute_kl_of_short (arch : String) (data : List Byte) (h : data.length < 3)
    (R : CorpusStats) :
    (CorpusStats.new arch data 0).bgObs = ∅ ∧
    (CorpusStats.new arch data 0).tgObs = ∅ ∧
    ((CorpusStats.new arch data 0).compute_kl R).bigrams = 0 ∧
    ((CorpusStats.new arch data 0).compute_kl R).trigrams = 0 := by
  have hw : windows3 data = [] := windows3_short data h
  have hbg : bgList data = [] := by
    rw [bgList, hw]
    rfl
  have htg : tgList data = [] := by
    rw [tgList, hw]
  refine ⟨?_, ?_, ?_, ?_⟩
  · show (bgList data).toFinset = ∅
    rw [hbg]
    rfl
  · show (tgList data).toFinset = ∅
    rw [htg]
    rfl
  · show klTerm (bgList data).toFinset _ _ _ _ = 0
    rw [hbg]
    simp [klTerm]
  · show klTerm (tgList data).toFinset _ _ _ _ = 0
    rw [htg]
    simp [klTerm]

theorem windowRanges_nil_of_zero (L : ℕ) (h : window L = 0) : windowRanges L = [] := by
  unfold windowRanges numWindows
  rw [h, Nat.div_zero, List.range_zero, List.map_nil]

/-! ### Claim theorems -/

/-- C1: `final_range_result` evaluates the six rules of the decision heuristic
in exactly the stated order, with the threshold triple chosen independently
per order by the winning arch's strictness as `(5,2,1)` non-strict /
`(4,2.5,1.5)` strict for bigrams and `(6,2,1)` non-strict / `(5,2.5,1.5)`
strict for trigrams. -/
theorem C1_heuristic_rule_order (res_bg res_tg : RangeResult) :
    final_range_result res_bg res_tg = final_range_result_claim res_bg res_tg :=
  final_range_result_eq_claim res_bg res_tg

/-- C2 (counterexample): with base count `0` and data shorter than 3 bytes
every `Qtotal` is `0`, the base frequencies degenerate, and the claimed
conservation identity fails (the left side is `0`, not `1`). -/
theorem C2_counterexample : ¬ newConserves "x" [] 0 := by
  intro h
  obtain ⟨h1, -, -⟩ := h
  unfold conservesAt at h1
  simp only [CorpusStats.new] at h1
  have hug : ugList ([] : List Byte) = [] := rfl
  rw [hug] at h1
  simp [gramBase, gramFreq, qtotal] at h1

/-- C2 (amended): for every `CorpusStats` built by `CorpusStats::new` with a
nonnegative base count that is positive or paired with data of at least 3
bytes, each order `k ∈ {1,2,3}` satisfies
`base_freq_k * (256^k - observed_k) + Σ freqs_k = 1` exactly over the reals. -/
theorem C2_smoothing_conservation (arch : String) (data : List Byte) (b : ℝ)
    (hb : 0 ≤ b) (h : 0 < b ∨ 3 ≤ data.length) : newConserves arch data b :=
  conservation_of_new arch data b hb h

theorem C2_witness :
    ((0:ℝ) ≤ 0.01 ∧ (0 < (0.01:ℝ) ∨ 3 ≤ ([] : List Byte).length)) ∧
      newConserves "arm" [] 0.01 :=
  ⟨⟨by norm_num, Or.inl (by norm_num)⟩,
    C2_smoothing_conservation "arm" [] 0.01 (by norm_num) (Or.inl (by norm_num))⟩

/-- C4: `detect_code` selects the half-window exactly as the claimed table
states, with `floor(log2 L)` read as the exact `Nat.log2`. -/
theorem C4_window_selection (L : ℕ) : window L = windowClaim L := by
  unfold window windowClaim
  split_ifs <;> first | rfl | omega

/-- C5 (counterexample): at file length `7480 * 2^32` the quotient
`L / (170 * log2 L)` is exactly `2^32`, the mask `0xFFFFF000` zeroes it, the
half-window is `0`, `step_by(0)` panics and no window is emitted, so the
claimed layout (in particular coverage of `[0, L)`) fails. -/
theorem C5_counterexample : ¬ windowLayoutProp 32126355374080 := by
  have hlog : Nat.log2 32126355374080 = 44 := by
    rw [Nat.log2_eq_log_two]
    exact Nat.log_eq_of_pow_le_of_lt_pow (by norm_num) (by norm_num)
  have hw : window 32126355374080 = 0 := by
    unfold window
    rw [if_neg (by omega), if_neg (by omega), if_neg (by omega), if_neg (by omega),
      if_neg (by omega), hlog]
    norm_num
    decide
  have hempty : windowRanges 32126355374080 = [] := windowRanges_nil_of_zero _ hw
  intro h
  obtain ⟨-, -, hcov, -⟩ := h
  obtain ⟨p, hp, -, -⟩ := hcov 0 (by norm_num)
  rw [hempty] at hp
  exact absurd hp (List.not_mem_nil p)

/-- C5 (amended): for every file length `L > 0` whose chosen half-window is
nonzero (which holds in particular for all `L < 4080 * 2^32`), the emitted
windows are exactly `[i*w, min(L, i*w + 2w))` for `i*w < L`, they cover
`[0, L)`, and consecutive windows overlap by exactly `w` except possibly at
the final, clipped window. -/
theorem C5_window_layout (L : ℕ) (_hL : 0 < L) (hw : 0 < window L) :
    windowLayoutProp L := by
  refine ⟨?_, ?_, ?_, ?_⟩
  · intro p hp
    obtain ⟨i, hi, rfl⟩ := (mem_windowRanges L p).mp hp
    exact ⟨i, hi, rfl, start_lt_of_lt_numWindows L (window L) i hw hi⟩
  · intro i hi
    exact (mem_windowRanges L _).mpr ⟨i, hi, rfl⟩
  · intro x hx
    obtain ⟨i, hi, h1, h2⟩ := coverage_of_windows L (window L) x hw hx
    exact ⟨(i * window L, min L (i * window L + 2 * window L)),
      (mem_windowRanges L _).mpr ⟨i, hi, rfl⟩, h1, h2⟩
  · intro i hi
    exact overlap_of_windows L (window L) i hw hi

theorem C5_witness : (0 < 5000 ∧ 0 < window 5000) ∧ windowLayoutProp 5000 :=
  ⟨⟨by decide, by decide⟩, C5_window_layout 5000 (by decide) (by decide)⟩

/-- C6: holding all other inputs of `final_range_result` fixed, decreasing the
trigram divergence can never change an assigned label into `None`. -/
theorem C6_mono_div_tg (rb : RangeResult) (a : String) (m v t t' : ℝ)
    (hlt : t' < t) (h : (final_range_result rb ⟨a, t, m, v⟩).isSome) :
    (final_range_result rb ⟨a, t', m, v⟩).isSome :=
  final_range_result_mono_div_tg rb a m v t t' hlt h

theorem C6_witness :
    (((-2:ℝ) < -1) ∧ (final_range_result ⟨"a", 0, 0, 0⟩ ⟨"a", -1, 0, 0⟩).isSome) ∧
      (final_range_result ⟨"a", 0, 0, 0⟩ ⟨"a", -2, 0, 0⟩).isSome := by
  have h1 : (final_range_result ⟨"a", 0, 0, 0⟩ ⟨"a", -1, 0, 0⟩).isSome := by
    rw [final_range_result_isSome_iff]
    cases ht : is_strict "a" <;> simp [ht, Real.sqrt_zero] <;> norm_num
  exact ⟨⟨by norm_num, h1⟩,
    C6_mono_div_tg ⟨"a", 0, 0, 0⟩ "a" 0 0 (-1) (-2) (by norm_num) h1⟩

/-- C3: for every target built with base count `0` from data of length at
least 3 and every reference built with a strictly positive base count, both
divergences returned by `compute_kl` are nonnegative. -/
theorem C3_kl_nonneg (archT archR : String) (dataT dataR : List Byte) (b : ℝ)
    (hb : 0 < b) (hT : 3 ≤ dataT.length) :
    0 ≤ ((CorpusStats.new archT dataT 0).compute_kl
          (CorpusStats.new archR dataR b)).bigrams ∧
    0 ≤ ((CorpusStats.new archT dataT 0).compute_kl
          (CorpusStats.new archR dataR b)).trigrams := by
  constructor
  · exact klTerm_nonneg (256 ^ 2) (bgList dataT) (bgList dataR) b hb
      (ngram_ne_nil _ _ (bgList_length dataT) hT) card_byte2
  · exact klTerm_nonneg (256 ^ 3) (tgList dataT) (tgList dataR) b hb
      (ngram_ne_nil _ _ (tgList_length dataT) hT) card_byte3

theorem C3_witness :
    ((0:ℝ) < 1 ∧ 3 ≤ ([0, 0, 0] : List Byte).length) ∧
      (0 ≤ ((CorpusStats.new "target" [0, 0, 0] 0).compute_kl
            (CorpusStats.new "x" [] 1)).bigrams ∧
        0 ≤ ((CorpusStats.new "target" [0, 0, 0] 0).compute_kl
            (CorpusStats.new "x" [] 1)).trigrams) :=
  ⟨⟨by norm_num, by decide⟩,
    C3_kl_nonneg "target" "x" [0, 0, 0] [] 1 (by norm_num) (by decide)⟩

/-- C9 (amended): for any corpus data yielding at least `300000` 3-windows
(length at least `300002`), rebuilding it unsmoothed and scoring it against
its own `0.01`-smoothed reference stats gives divergences of at most `0.5`
for both orders. -/
theorem C9_self_kl_le (archT archR : String) (data : List Byte)
    (h : 300002 ≤ data.length) :
    ((CorpusStats.new archT data 0).compute_kl
        (CorpusStats.new archR data 0.01)).bigrams ≤ 0.5 ∧
    ((CorpusStats.new archT data 0).compute_kl
        (CorpusStats.new archR data 0.01)).trigrams ≤ 0.5 := by
  have h3 : 3 ≤ data.length := by omega
  have hhalf : (0.5 : ℝ) = 1 / 2 := by norm_num
  constructor
  · have hne : bgList data ≠ [] := ngram_ne_nil _ _ (bgList_length data) h3
    have hN : (300000 : ℝ) ≤ ((bgList data).length : ℝ) := by
      rw [bgList_length]
      have : 300000 ≤ data.length - 2 := by omega
      exact_mod_cast this
    have hlog := log_ratio_lt_half ((bgList data).length : ℝ) (0.01 * ((256 ^ 2 : ℕ) : ℝ))
      hN (by norm_num) (by push_cast; norm_num)
    have hb := klTerm_self_le_log (256 ^ 2) (bgList data) 0.01 (by norm_num) hne card_byte2
    rw [hhalf]
    exact le_trans hb (le_of_lt hlog)
  · have hne : tgList data ≠ [] := ngram_ne_nil _ _ (tgList_length data) h3
    have hN : (300000 : ℝ) ≤ ((tgList data).length : ℝ) := by
      rw [tgList_length]
      have : 300000 ≤ data.length - 2 := by omega
      exact_mod_cast this
    have hlog := log_ratio_lt_half ((tgList data).length : ℝ) (0.01 * ((256 ^ 3 : ℕ) : ℝ))
      hN (by norm_num) (by push_cast; norm_num)
    have hb := klTerm_self_le_log (256 ^ 3) (tgList data) 0.01 (by norm_num) hne card_byte3
    rw [hhalf]
    exact le_trans hb (le_of_lt hlog)

theorem C9_witness :
    (300002 ≤ (List.replicate 300002 (0 : Byte)).length) ∧
      (((CorpusStats.new "target" (List.replicate 300002 0) 0).compute_kl
          (CorpusStats.new "arm" (List.replicate 300002 0) 0.01)).bigrams ≤ 0.5 ∧
        ((CorpusStats.new "target" (List.replicate 300002 0) 0).compute_kl
          (CorpusStats.new "arm" (List.replicate 300002 0) 0.01)).trigrams ≤ 0.5) :=
  ⟨by rw [List.length_replicate], C9_self_kl_le "target" "arm" (List.replicate 300002 0)
    (by rw [List.length_replicate])⟩

theorem windows3_replicate : ∀ (n : ℕ) (a : Byte),
    windows3 (List.replicate (n + 2) a) = List.replicate n (a, a, a)
  | 0, a => rfl
  | (n + 1), a => by
    show (a, a, a) :: windows3 (List.replicate (n + 2) a) = List.replicate (n + 1) (a, a, a)
    rw [windows3_replicate n a]
    rfl

/-- C9 (counterexample): a 250002-byte corpus (any corpus with fewer than
about 258620 windows behaves likewise) violates the claimed `0.5` bound: the
trigram self-divergence is `log (417772.16 / 250000.01) ≈ 0.513 > 0.5`. -/
theorem count_replicate_self_dec {G : Type} [DecidableEq G] (n : ℕ) (a : G) :
    (List.replicate n a).count a = n := by
  induction n with
  | zero => rfl
  | succ k ih =>
    rw [List.replicate_succ, List.count_cons_self, ih]

theorem compute_kl_trigrams_eq (a1 a2 : String) (d : List Byte) (b1 b2 : ℝ) :
    ((CorpusStats.new a1 d b1).compute_kl (CorpusStats.new a2 d b2)).trigrams =
      klTerm (tgList d).toFinset (gramFreq (256 ^ 3) b1 (tgList d)) (tgList d).toFinset
        (gramFreq (256 ^ 3) b2 (tgList d)) (gramBase (256 ^ 3) b2 (tgList d)) := rfl

set_option maxRecDepth 8000 in
theorem C9_counterexample :
    ¬ (((CorpusStats.new "target" (List.replicate 250002 0) 0).compute_kl
          (CorpusStats.new "arm" (List.replicate 250002 0) 0.01)).bigrams ≤ 0.5 ∧
        ((CorpusStats.new "target" (List.replicate 250002 0) 0).compute_kl
          (CorpusStats.new "arm" (List.replicate 250002 0) 0.01)).trigrams ≤ 0.5) := by
  intro hcl
  have htg : tgList (List.replicate 250002 (0 : Byte)) =
      List.replicate 250000 ((0 : Byte), (0 : Byte), (0 : Byte)) := by
    show windows3 (List.replicate 250002 (0 : Byte)) = _
    rw [show (250002 : ℕ) = 250000 + 2 by norm_num]
    exact windows3_replicate 250000 0
  have hobs : (List.replicate 250000 ((0 : Byte), (0 : Byte), (0 : Byte))).toFinset =
      {((0 : Byte), (0 : Byte), (0 : Byte))} :=
    List.toFinset_replicate_of_ne_zero (by norm_num)
  have hlen : (List.replicate 250000 ((0 : Byte), (0 : Byte), (0 : Byte))).length = 250000 :=
    by rw [List.length_replicate]
  have hcard : (List.replicate 250000
      ((0 : Byte), (0 : Byte), (0 : Byte))).toFinset.card ≤ 256 ^ 3 := by
    rw [hobs, Finset.card_singleton]
    norm_num
  have hQT : qtotal (256 ^ 3) 0 (List.replicate 250000
      ((0 : Byte), (0 : Byte), (0 : Byte))) = 250000 := by
    rw [qtotal_eq _ _ _ hcard, hlen]
    norm_num
  have hQR : qtotal (256 ^ 3) (0.01 : ℝ) (List.replicate 250000
      ((0 : Byte), (0 : Byte), (0 : Byte))) = 417772.16 := by
    rw [qtotal_eq _ _ _ hcard, hlen]
    push_cast
    norm_num
  have hgt : (0.5 : ℝ) < ((CorpusStats.new "target" (List.replicate 250002 0) 0).compute_kl
      (CorpusStats.new "arm" (List.replicate 250002 0) 0.01)).trigrams := by
    rw [compute_kl_trigrams_eq, htg]
    unfold klTerm
    rw [hobs, Finset.sum_singleton]
    unfold gramFreq gramBase storedCount
    rw [count_replicate_self_dec]
    rw [hQT, hQR]
    rw [if_pos (Finset.mem_singleton_self _)]
    rw [if_pos (by norm_num : (((250000 : ℕ) : ℝ) + 0) / 250000 ≠ 0)]
    have hval : (((250000 : ℕ) : ℝ) + 0) / 250000 = 1 := by norm_num
    rw [hval, one_mul]
    have harg : (1 : ℝ) / ((((250000 : ℕ) : ℝ) + 0.01) / 417772.16) =
        417772.16 / 250000.01 := by
      push_cast
      rw [one_div_div]
      norm_num
    rw [harg]
    have h05 : (0.5 : ℝ) = 1 / 2 := by norm_num
    rw [h05, Real.lt_log_iff_exp_lt (by norm_num)]
    clear hcl htg hobs hlen hcard hQT hQR hval harg h05
    have hc : (1.67 : ℝ) ≤ 417772.16 / 250000.01 := by norm_num
    have hsq : Real.exp (1 / 2) * Real.exp (1 / 2) = Real.exp 1 := by
      rw [← Real.exp_add]
      norm_num
    have hexp : Real.exp (1 / 2) < 1.67 := by
      nlinarith [Real.exp_pos (1 / 2), Real.exp_one_lt_d9]
    linarith
  exact absurd hcl.2 (not_le.mpr hgt)

/-- C10: for every `CorpusStats::new(arch, data, 0.0)` with data shorter than
3 bytes, all three n-gram maps are empty, all three `Qtotal`s are `0`, and the
stored base frequencies are each the division `0 / 0` (IEEE `NaN`); and the
stats `detect_code` builds for a window are exactly
`CorpusStats::new("target", slice, 0.0)`, so a window shorter than 3 bytes is
exactly this object. -/
theorem C10_short_stats_degenerate (arch : String) (data : List Byte)
    (h : data.length < 3) :
    shortStatsDegenerate arch data ∧
      (∀ (fdata : List Byte) (p : ℕ × ℕ),
        windowStatsOf fdata p = CorpusStats.new "target" (windowSlice fdata p) 0) := by
  have hw : windows3 data = [] := windows3_short data h
  have hug : ugList data = [] := by
    rw [ugList, hw]
    rfl
  have hbg : bgList data = [] := by
    rw [bgList, hw]
    rfl
  have htg : tgList data = [] := by
    rw [tgList, hw]
  refine ⟨⟨?_, ?_, ?_, ?_, ?_, ?_, ?_, ?_, ?_⟩, fun _ _ => rfl⟩
  · show (ugList data).toFinset = ∅
    rw [hug]
    rfl
  · show (bgList data).toFinset = ∅
    rw [hbg]
    rfl
  · show (tgList data).toFinset = ∅
    rw [htg]
    rfl
  · exact qtotal_of_short 256 _ hug
  · exact qtotal_of_short (256 ^ 2) _ hbg
  · exact qtotal_of_short (256 ^ 3) _ htg
  · show gramBase 256 0 (ugList data) = 0 / 0
    unfold gramBase
    rw [qtotal_of_short 256 _ hug]
  · show gramBase (256 ^ 2) 0 (bgList data) = 0 / 0
    unfold gramBase
    rw [qtotal_of_short (256 ^ 2) _ hbg]
  · show gramBase (256 ^ 3) 0 (tgList data) = 0 / 0
    unfold gramBase
    rw [qtotal_of_short (256 ^ 3) _ htg]

theorem C10_witness :
    (([0, 0] : List Byte).length < 3) ∧
      (shortStatsDegenerate "target" [0, 0] ∧
        (∀ (fdata : List Byte) (p : ℕ × ℕ),
          windowStatsOf fdata p = CorpusStats.new "target" (windowSlice fdata p) 0)) :=
  ⟨by decide, C10_short_stats_degenerate "target" [0, 0] (by decide)⟩

theorem minKlOfDivs_zeros (l : List ℝ) (hl : ∀ d ∈ l, d = 0) : minKlOfDivs l = none := by
  unfold minKlOfDivs sortDivs
  rw [List.find?_eq_none]
  intro x hx
  have hx' : x ∈ l := (List.mergeSort_perm l _).mem_iff.mp hx
  rw [hl x hx']
  simp only [decide_eq_true_eq]
  intro hcon
  exact hcon (by norm_num)

/-- C7: on a 2-byte file the single window `[0, 2)` has empty n-gram maps and
`compute_kl` returns `(0, 0)` against every reference, so every collected
divergence is `0`; the `min_kl` search for a value not below `0.1` therefore
finds nothing (`none` here), which makes `find(...).unwrap()` in the source
panic instead of completing normally as the claim states. -/
theorem C7_short_file_pipeline :
    windowRanges (([0, 0] : List Byte).length) = [(0, 2)] ∧
    (windowStatsOf [0, 0] (0, 2)).bgObs = ∅ ∧
    (windowStatsOf [0, 0] (0, 2)).tgObs = ∅ ∧
    ((windowStatsOf [0, 0] (0, 2)).compute_kl
        (CorpusStats.new "x" [1, 2, 3, 4] (1 / 100))).bigrams = 0 ∧
    ((windowStatsOf [0, 0] (0, 2)).compute_kl
        (CorpusStats.new "x" [1, 2, 3, 4] (1 / 100))).trigrams = 0 ∧
    minKlOfDivs (pipelineDivsBg [CorpusStats.new "x" [1, 2, 3, 4] (1 / 100)] [0, 0]) =
      none ∧
    minKlOfDivs (pipelineDivsTg [CorpusStats.new "x" [1, 2, 3, 4] (1 / 100)] [0, 0]) =
      none := by
  have hshort : (windowSlice [0, 0] (0, 2)).length < 3 := by decide
  obtain ⟨hbgObs, htgObs, hbg0, htg0⟩ :=
    compute_kl_of_short "target" (windowSlice [0, 0] (0, 2)) hshort
      (CorpusStats.new "x" [1, 2, 3, 4] (1 / 100))
  have hwr : windowRanges (([0, 0] : List Byte).length) = [(0, 2)] := by decide
  have hdivsBg : pipelineDivsBg [CorpusStats.new "x" [1, 2, 3, 4] (1 / 100)] [0, 0] =
      [((windowStatsOf [0, 0] (0, 2)).compute_kl
          (CorpusStats.new "x" [1, 2, 3, 4] (1 / 100))).bigrams] := by
    unfold pipelineDivsBg
    rw [hwr]
    simp only [List.flatMap_cons, List.flatMap_nil, List.map_cons, List.map_nil,
      List.append_nil]
  have hdivsTg : pipelineDivsTg [CorpusStats.new "x" [1, 2, 3, 4] (1 / 100)] [0, 0] =
      [((windowStatsOf [0, 0] (0, 2)).compute_kl
          (CorpusStats.new "x" [1, 2, 3, 4] (1 / 100))).trigrams] := by
    unfold pipelineDivsTg
    rw [hwr]
    simp only [List.flatMap_cons, List.flatMap_nil, List.map_cons, List.map_nil,
      List.append_nil]
  refine ⟨hwr, hbgObs, htgObs, hbg0, htg0, ?_, ?_⟩
  · rw [hdivsBg]
    refine minKlOfDivs_zeros _ ?_
    intro d hd
    rw [List.mem_singleton.mp hd]
    exact hbg0
  · rw [hdivsTg]
    refine minKlOfDivs_zeros _ ?_
    intro d hd
    rw [List.mem_singleton.mp hd]
    exact htg0

/-- C8 (counterexample): two iteration orders of the same detection content
disagree on `win_sz`: iterated one way it is the length `300` of the full window,
the other way the length `44` of the clipped window, because the source takes
`keys().next().unwrap().len()` from a `HashMap`. -/
theorem C8_counterexample :
    dTwoWin.kl_bg_arch_to_range = dTwoWinRev.kl_bg_arch_to_range ∧
    dTwoWin.kl_tg_arch_to_range = dTwoWinRev.kl_tg_arch_to_range ∧
    dTwoWin.kl_bg_range_to_arch.Perm dTwoWinRev.kl_bg_range_to_arch ∧
    dTwoWin.kl_tg_range_to_arch.Perm dTwoWinRev.kl_tg_range_to_arch ∧
    (dTwoWin.kl_bg_range_to_arch.map Prod.fst).Nodup ∧
    winSz dTwoWin ≠ winSz dTwoWinRev := by
  refine ⟨rfl, rfl, List.Perm.swap _ _ _, List.Perm.swap _ _ _, ?_, ?_⟩
  · simp [dTwoWin]
  · simp [winSz, dTwoWin, dTwoWinRev]

/-- C8 (amended): with the `BTreeMap` contents equal and the `HashMap`s equal
up to iteration order (with no duplicate range keys), the arch numbering, the
global min/max divergences of both orders, and every per-range final label
agree; `win_sz` is excluded, as it depends on which range iterates first. -/
theorem C8_order_independent (d d' : DetectionResult)
    (hbt : d.kl_bg_arch_to_range = d'.kl_bg_arch_to_range)
    (htt : d.kl_tg_arch_to_range = d'.kl_tg_arch_to_range)
    (hbp : d.kl_bg_range_to_arch.Perm d'.kl_bg_range_to_arch)
    (htp : d.kl_tg_range_to_arch.Perm d'.kl_tg_range_to_arch)
    (hbn : (d.kl_bg_range_to_arch.map Prod.fst).Nodup)
    (htn : (d.kl_tg_range_to_arch.map Prod.fst).Nodup) :
    aggregationAgrees d d' := by
  refine ⟨?_, ?_, ?_, ?_, ?_, ?_⟩
  · unfold archToIdx
    rw [hbt]
  · rw [hbt]
  · rw [hbt]
  · rw [htt]
  · rw [htt]
  · intro r
    unfold finalLabelOf
    rw [alookup_perm hbp r hbn, alookup_perm htp r htn]

theorem C8_witness :
    (dOneWin.kl_bg_arch_to_range = dOneWin.kl_bg_arch_to_range ∧
      dOneWin.kl_bg_range_to_arch.Perm dOneWin.kl_bg_range_to_arch ∧
      (dOneWin.kl_bg_range_to_arch.map Prod.fst).Nodup ∧
      (dOneWin.kl_tg_range_to_arch.map Prod.fst).Nodup) ∧
      aggregationAgrees dOneWin dOneWin :=
  ⟨⟨rfl, List.Perm.refl _, by simp [dOneWin], by simp [dOneWin]⟩,
    C8_order_independent dOneWin dOneWin rfl rfl (List.Perm.refl _) (List.Perm.refl _)
      (by simp [dOneWin]) (by simp [dOneWin])⟩
